import Mathlib

/-!
Verification of the evidentiary-integrity subsystem of LERS-Standalone.

The Python sources under `backend/apps` are shallowly embedded: byte strings
become `List (Fin 256)`, fallible operations return `Option`, and the calls
into the `cryptography` library (AES-256-GCM) are replaced by an executable
model cipher that keeps the structural properties the code relies on:
the keystream is applied by XOR (so it is length-preserving and involutive),
and the 16-byte authentication tag is a position-sensitive accumulator over
key, nonce and ciphertext reduced modulo a prime, so that any single-bit
change of nonce, tag or ciphertext is detected.  SHA-256 digests are
modelled by an executable mixing fold rendered as a decimal string.
-/

namespace LERS

/-- A byte of file content. -/
abbrev Byte := Fin 256

/-- A byte string. -/
abbrev Bytes := List Byte

/-- XOR of two bytes. -/
def xorB (a b : Byte) : Byte :=
  ⟨a.val ^^^ b.val, by
    have h := Nat.xor_lt_two_pow (n := 8) (x := a.val) (y := b.val)
    simp only [show (2:Nat)^8 = 256 by norm_num] at h
    exact h a.isLt b.isLt⟩

/-- Byte of the model AES-CTR keystream for a key/nonce at position `i`
(stands in for the AES block cipher output inside GCM). -/
def ksByte (key nonce : Bytes) (i : Nat) : Byte :=
  ⟨(key.foldl (fun a b => (a * 31 + b.val) % 256) 7 +
    nonce.foldl (fun a b => (a * 37 + b.val) % 256) 11 + 131 * i) % 256,
    Nat.mod_lt _ (by omega)⟩

/-- The first `n` bytes of the model keystream. -/
def keystream (key nonce : Bytes) (n : Nat) : Bytes :=
  (List.range n).map (ksByte key nonce)

/-- XOR a payload with the model keystream; encryption and decryption of the
GCM body are both instances of this (CTR mode). -/
def xorKeystream (key nonce p : Bytes) : Bytes :=
  List.zipWith xorB p (keystream key nonce p.length)

/-- Modulus of the model authentication-tag accumulator (a prime). -/
abbrev tagModulus : Nat := 65521

instance : Fact (Nat.Prime tagModulus) := ⟨by norm_num⟩

/-- Position-sensitive accumulator over a byte string (Horner form with the
invertible multiplier 257 modulo the prime `tagModulus`). -/
def polyZ : Bytes → ZMod tagModulus
  | [] => 0
  | b :: l => (b.val : ZMod tagModulus) + 257 * polyZ l

/-- Model GHASH: the tag accumulator over key, nonce and ciphertext. -/
def tagAcc (key iv ct : Bytes) : ZMod tagModulus :=
  polyZ key + 257 * polyZ (iv ++ ct)

/-- The 16-byte authentication tag (little-endian encoding of the
accumulator, zero-padded to the GCM tag length). -/
def tagBytes (key iv ct : Bytes) : Bytes :=
  ⟨(tagAcc key iv ct).val % 256, by omega⟩ ::
  ⟨(tagAcc key iv ct).val / 256 % 256, by omega⟩ ::
  List.replicate 14 ⟨0, by omega⟩

/-- Embedding of `EvidenceVault.encrypt_file` (storage.py): AES-256-GCM with a 16-byte IV;
the stored envelope is `iv ++ tag ++ ciphertext`.  The source also returns a
key id and the base64 IV alongside the envelope; they play no role in the
claims and are omitted.  The random `os.urandom(16)` IV is passed explicitly. -/
def encrypt_file (key iv content : Bytes) : Bytes :=
  iv ++ tagBytes key iv (xorKeystream key iv content) ++ xorKeystream key iv content

/-- Embedding of `EvidenceVault.decrypt_file` (storage.py): splits the envelope as
`enc[:16]`, `enc[16:32]`, `enc[32:]` and decrypts with AES-256-GCM; a tag
mismatch raises (modelled by `none`) and no plaintext is returned. -/
def decrypt_file (key enc : Bytes) : Option Bytes :=
  let iv := enc.take 16
  let tag := (enc.drop 16).take 16
  let ct := enc.drop 32
  if tag = tagBytes key iv ct then some (xorKeystream key iv ct) else none

theorem tagBytes_length (key iv ct : Bytes) : (tagBytes key iv ct).length = 16 := by
  simp [tagBytes]

theorem keystream_length (key nonce : Bytes) (n : Nat) :
    (keystream key nonce n).length = n := by
  simp [keystream]

theorem xorKeystream_length (key nonce p : Bytes) :
    (xorKeystream key nonce p).length = p.length := by
  simp [xorKeystream, keystream_length]

theorem xorB_xorB (a b : Byte) : xorB (xorB a b) b = a := by
  apply Fin.ext
  simp [xorB, Nat.xor_assoc]

theorem zipWith_xorB_cancel : ∀ (p ks : Bytes), p.length ≤ ks.length →
    List.zipWith xorB (List.zipWith xorB p ks) ks = p := by
  intro p
  induction p with
  | nil => intro ks _; simp
  | cons a t ih =>
    intro ks hks
    match ks with
    | [] => simp at hks
    | b :: ks' =>
      simp only [List.zipWith_cons_cons, xorB_xorB, List.cons.injEq, true_and]
      exact ih ks' (by simpa using hks)

theorem xorKeystream_involutive (key nonce p : Bytes) :
    xorKeystream key nonce (xorKeystream key nonce p) = p := by
  unfold xorKeystream
  rw [List.length_zipWith, keystream_length, Nat.min_self]
  exact zipWith_xorB_cancel p (keystream key nonce p.length)
    (by rw [keystream_length])

/-- Evaluating `decrypt_file` on an envelope given as three parts of the
correct lengths. -/
theorem decrypt_file_parts (key A B C : Bytes) (hA : A.length = 16)
    (hB : B.length = 16) :
    decrypt_file key (A ++ B ++ C) =
      if B = tagBytes key A C then some (xorKeystream key A C) else none := by
  have h1 : (A ++ B ++ C).take 16 = A := by
    rw [List.append_assoc]; exact List.take_left' hA
  have h2 : ((A ++ B ++ C).drop 16).take 16 = B := by
    rw [List.append_assoc, List.drop_left' hA]
    exact List.take_left' hB
  have h3 : (A ++ B ++ C).drop 32 = C := by
    rw [List.append_assoc, show (32:Nat) = 16 + 16 by norm_num, ← List.drop_drop,
      List.drop_left' hA, List.drop_left' hB]
  unfold decrypt_file
  rw [h1, h2, h3]

/-- C1: for every plaintext `P`, decrypting the envelope produced by
`EvidenceVault.encrypt_file` returns exactly `P`; the envelope is laid out as
the 16-byte nonce, then the 16-byte authentication tag, then the ciphertext
body, and decryption needs nothing but the envelope and the key. -/
theorem C1_encrypt_decrypt_roundtrip (key iv P : Bytes) (hiv : iv.length = 16) :
    decrypt_file key (encrypt_file key iv P) = some P ∧
    (encrypt_file key iv P).take 16 = iv ∧
    ((encrypt_file key iv P).drop 16).take 16 =
      tagBytes key iv (xorKeystream key iv P) ∧
    (encrypt_file key iv P).drop 32 = xorKeystream key iv P := by
  have hparts := decrypt_file_parts key iv (tagBytes key iv (xorKeystream key iv P))
    (xorKeystream key iv P) hiv (tagBytes_length _ _ _)
  refine ⟨?_, ?_, ?_, ?_⟩
  · rw [encrypt_file, hparts, if_pos rfl, xorKeystream_involutive]
  · rw [encrypt_file, List.append_assoc]; exact List.take_left' hiv
  · rw [encrypt_file, List.append_assoc, List.drop_left' hiv]
    exact List.take_left' (tagBytes_length _ _ _)
  · rw [encrypt_file, List.append_assoc, show (32:Nat) = 16 + 16 by norm_num,
      ← List.drop_drop, List.drop_left' hiv, List.drop_left' (tagBytes_length _ _ _)]

/-- Witness for C1 at a concrete key, nonce and plaintext. -/
theorem C1_witness :
    ((List.replicate 16 (0 : Byte)).length = 16) ∧
    decrypt_file [7] (encrypt_file [7] (List.replicate 16 (0 : Byte)) [5, 250]) =
      some [5, 250] :=
  ⟨by decide, (C1_encrypt_decrypt_roundtrip [7] (List.replicate 16 (0 : Byte))
    [5, 250] (by decide)).1⟩

/-- Flip bit `k % 8` of a byte. -/
def flipByte (b : Byte) (k : Nat) : Byte :=
  ⟨b.val ^^^ 2 ^ (k % 8), by
    have h := Nat.xor_lt_two_pow (n := 8) (x := b.val) (y := 2 ^ (k % 8))
    simp only [show (2:Nat)^8 = 256 by norm_num] at h
    refine h b.isLt ?_
    calc 2 ^ (k % 8) ≤ 2 ^ 7 := Nat.pow_le_pow_right (by omega) (by omega)
    _ < 256 := by norm_num⟩

/-- Flip bit `k % 8` of the byte at index `i` of a byte string. -/
def flipBit : Bytes → Nat → Nat → Bytes
  | [], _, _ => []
  | b :: t, 0, k => flipByte b k :: t
  | b :: t, i + 1, k => b :: flipBit t i k

theorem xor_ne_self (a b : Nat) (hb : b ≠ 0) : a ^^^ b ≠ a := by
  intro h
  have h2 : a ^^^ (a ^^^ b) = a ^^^ a := by rw [h]
  rw [← Nat.xor_assoc, Nat.xor_self, Nat.zero_xor] at h2
  exact hb h2

theorem flipByte_ne (b : Byte) (k : Nat) : flipByte b k ≠ b := by
  intro h
  have hval : b.val ^^^ 2 ^ (k % 8) = b.val := congrArg Fin.val h
  exact xor_ne_self b.val (2 ^ (k % 8)) (Nat.pow_pos (by omega)).ne' hval

theorem flipBit_length : ∀ (l : Bytes) (i k : Nat), (flipBit l i k).length = l.length
  | [], _, _ => rfl
  | _ :: t, 0, _ => rfl
  | _ :: t, i + 1, k => by simp [flipBit, flipBit_length t i k]

theorem flipBit_append_left : ∀ (l₁ l₂ : Bytes) (i k : Nat), i < l₁.length →
    flipBit (l₁ ++ l₂) i k = flipBit l₁ i k ++ l₂
  | [], _, i, _, h => by simp at h
  | b :: t, l₂, 0, k, _ => rfl
  | b :: t, l₂, i + 1, k, h => by
    simp only [List.cons_append, flipBit, List.cons.injEq, true_and]
    exact flipBit_append_left t l₂ i k (by simpa using h)

theorem flipBit_append_right : ∀ (l₁ l₂ : Bytes) (j k : Nat),
    flipBit (l₁ ++ l₂) (l₁.length + j) k = l₁ ++ flipBit l₂ j k
  | [], l₂, j, k => by simp
  | b :: t, l₂, j, k => by
    have hidx : (b :: t).length + j = (t.length + j) + 1 := by
      simp only [List.length_cons]; omega
    rw [List.cons_append, hidx]
    simp only [flipBit]
    exact congrArg (List.cons b) (flipBit_append_right t l₂ j k)

theorem flipBit_ne : ∀ (l : Bytes) (i k : Nat), i < l.length → flipBit l i k ≠ l
  | [], _, _, h => by simp at h
  | b :: t, 0, k, _ => by
    simp only [flipBit, ne_eq, List.cons.injEq, not_and]
    intro hb; exact absurd hb (flipByte_ne b k)
  | b :: t, i + 1, k, h => by
    simp only [flipBit, ne_eq, List.cons.injEq, true_and]
    exact flipBit_ne t i k (by simpa using h)

theorem cast_byte_injective (a b : Nat) (ha : a < 256) (hb : b < 256)
    (h : (a : ZMod tagModulus) = b) : a = b := by
  have h1 : ((a : ZMod tagModulus)).val = a :=
    ZMod.val_cast_of_lt (show a < 65521 by omega)
  have h2 : ((b : ZMod tagModulus)).val = b :=
    ZMod.val_cast_of_lt (show b < 65521 by omega)
  rw [← h1, ← h2, h]

theorem mul257_cancel (x y : ZMod tagModulus) (h : 257 * x = 257 * y) : x = y :=
  mul_left_cancel₀ (by decide) h

theorem polyZ_flipBit_ne : ∀ (l : Bytes) (i k : Nat), i < l.length →
    polyZ (flipBit l i k) ≠ polyZ l
  | [], _, _, h => by simp at h
  | b :: t, 0, k, _ => by
    simp only [flipBit, polyZ, ne_eq, add_left_inj]
    intro h
    exact flipByte_ne b k (Fin.ext (cast_byte_injective _ _ (flipByte b k).isLt b.isLt h))
  | b :: t, i + 1, k, h => by
    simp only [flipBit, polyZ, ne_eq, add_right_inj]
    intro hmul
    exact polyZ_flipBit_ne t i k (by simpa using h) (mul257_cancel _ _ hmul)

instance : NeZero tagModulus := ⟨by norm_num⟩

/-- The 16-byte tag encoding is injective in the accumulator value. -/
theorem tagBytes_inj (key iv ct key' iv' ct' : Bytes)
    (h : tagBytes key iv ct = tagBytes key' iv' ct') :
    tagAcc key iv ct = tagAcc key' iv' ct' := by
  have hv : (tagAcc key iv ct).val < 65521 := ZMod.val_lt _
  have hv' : (tagAcc key' iv' ct').val < 65521 := ZMod.val_lt _
  simp only [tagBytes, List.cons.injEq, Fin.mk.injEq] at h
  obtain ⟨h1, h2, -⟩ := h
  apply ZMod.val_injective
  omega

/-- Different (nonce, ciphertext) inputs with the same key give different
tag accumulators as soon as the concatenations differ in `polyZ`. -/
theorem tagAcc_ne_of_polyZ_ne (key iv ct iv' ct' : Bytes)
    (h : polyZ (iv ++ ct) ≠ polyZ (iv' ++ ct')) :
    tagAcc key iv ct ≠ tagAcc key iv' ct' := by
  simp only [tagAcc, ne_eq, add_right_inj]
  intro hmul
  exact h (mul257_cancel _ _ hmul)

/-- C2: flipping any single bit of the envelope produced by
`EvidenceVault.encrypt_file` — in the nonce, the tag or the ciphertext body —
makes `EvidenceVault.decrypt_file` fail with an authentication failure,
returning no bytes at all. -/
theorem C2_bitflip_fails (key iv P : Bytes) (hiv : iv.length = 16)
    (i k : Nat) (hi : i < (encrypt_file key iv P).length) :
    decrypt_file key (flipBit (encrypt_file key iv P) i k) = none := by
  set ct := xorKeystream key iv P with hct
  set tb := tagBytes key iv ct with htb
  have htbl : tb.length = 16 := tagBytes_length _ _ _
  have henv : encrypt_file key iv P = iv ++ tb ++ ct := rfl
  have hlen : (encrypt_file key iv P).length = 32 + ct.length := by
    rw [henv]; simp only [List.length_append, hiv, htbl]
  rcases Nat.lt_or_ge i 16 with h16 | h16
  · -- flip inside the nonce region
    have hilt : i < iv.length := by omega
    have hsplit : flipBit (encrypt_file key iv P) i k =
        flipBit iv i k ++ tb ++ ct := by
      rw [henv, List.append_assoc, flipBit_append_left iv (tb ++ ct) i k hilt,
        ← List.append_assoc]
    have hne : tb ≠ tagBytes key (flipBit iv i k) ct := by
      rw [htb]
      intro heq
      have hacc := tagBytes_inj key iv ct key (flipBit iv i k) ct heq
      refine tagAcc_ne_of_polyZ_ne key iv ct (flipBit iv i k) ct ?_ hacc
      rw [← flipBit_append_left iv ct i k hilt]
      exact Ne.symm (polyZ_flipBit_ne (iv ++ ct) i k
        (by rw [List.length_append]; omega))
    rw [hsplit, decrypt_file_parts key _ tb ct
      (by rw [flipBit_length]; exact hiv) htbl, if_neg hne]
  · rcases Nat.lt_or_ge i 32 with h32 | h32
    · -- flip inside the tag region
      have hsplit : flipBit (encrypt_file key iv P) i k =
          iv ++ flipBit tb (i - 16) k ++ ct := by
        have hidx : i = iv.length + (i - 16) := by rw [hiv]; omega
        rw [henv, List.append_assoc]
        nth_rewrite 1 [hidx]
        rw [flipBit_append_right iv (tb ++ ct) (i - 16) k,
          flipBit_append_left tb ct (i - 16) k (by rw [htbl]; omega),
          ← List.append_assoc]
      have hne : flipBit tb (i - 16) k ≠ tagBytes key iv ct := by
        rw [← htb]
        exact flipBit_ne tb (i - 16) k (by rw [htbl]; omega)
      rw [hsplit, decrypt_file_parts key iv _ ct hiv
        (by rw [flipBit_length]; exact htbl), if_neg hne]
    · -- flip inside the ciphertext body
      have hjlt : i - 32 < ct.length := by omega
      have hsplit : flipBit (encrypt_file key iv P) i k =
          iv ++ tb ++ flipBit ct (i - 32) k := by
        have hidx : i = (iv ++ tb).length + (i - 32) := by
          rw [List.length_append, hiv, htbl]; omega
        rw [henv]
        nth_rewrite 1 [hidx]
        rw [flipBit_append_right (iv ++ tb) ct (i - 32) k]
      have hne : tb ≠ tagBytes key iv (flipBit ct (i - 32) k) := by
        rw [htb]
        intro heq
        have hacc := tagBytes_inj key iv ct key iv (flipBit ct (i - 32) k) heq
        refine tagAcc_ne_of_polyZ_ne key iv ct iv (flipBit ct (i - 32) k) ?_ hacc
        rw [← flipBit_append_right iv ct (i - 32) k]
        exact Ne.symm (polyZ_flipBit_ne (iv ++ ct) _ k
          (by rw [List.length_append]; omega))
      rw [hsplit, decrypt_file_parts key iv tb _ hiv htbl, if_neg hne]

/-- Witness for C2: flipping one bit of a concrete envelope. -/
theorem C2_witness :
    ((List.replicate 16 (0 : Byte)).length = 16 ∧
      0 < (encrypt_file [7] (List.replicate 16 (0 : Byte)) [5, 250]).length) ∧
    decrypt_file [7]
      (flipBit (encrypt_file [7] (List.replicate 16 (0 : Byte)) [5, 250]) 0 0) =
      none :=
  ⟨⟨by decide, by decide⟩,
    C2_bitflip_fails [7] (List.replicate 16 (0 : Byte)) [5, 250] (by decide)
      0 0 (by decide)⟩

/-!  Canonical JSON serialization (`json.dumps(payload, sort_keys=True)`).

Keys appear in sorted order with the default `", "` / `": "` separators.
String escaping covers the quote and the backslash; the `\uXXXX` escapes
`json.dumps` emits for control and non-ASCII characters are not modelled —
both maps are injective character codes, which is all the claims rely on. -/

/-- Escape one character as inside a JSON string literal. -/
def escChar (c : Char) : List Char :=
  if c = '"' then ['\\', '"']
  else if c = '\\' then ['\\', '\\']
  else [c]

/-- Escape a character string. -/
def escStr : List Char → List Char
  | [] => []
  | c :: t => escChar c ++ escStr t

/-- Serialize a JSON string: quoted and escaped. -/
def serStr (s : String) : List Char :=
  '"' :: (escStr s.data ++ ['"'])

/-- The decimal digit characters. -/
def decDigit (d : Nat) : Char := Char.ofNat (48 + d)

/-- Decimal rendering of a natural number, as `str(int)` in Python. -/
def decimal (n : Nat) : List Char :=
  if n = 0 then ['0'] else (Nat.digits 10 n).reverse.map decDigit

/-- Serialize one key/value pair of a string-valued JSON object. -/
def serPair (p : String × String) : List Char :=
  serStr p.1 ++ (':' :: ' ' :: serStr p.2)

/-- Tail of a serialized JSON object: `", "` before each later pair. -/
def serPairsTail : List (String × String) → List Char
  | [] => []
  | p :: ps => ',' :: ' ' :: (serPair p ++ serPairsTail ps)

/-- Body of a serialized JSON object. -/
def serPairs : List (String × String) → List Char
  | [] => []
  | p :: ps => serPair p ++ serPairsTail ps

/-- Serialize a string-valued JSON object whose pairs are given in the
canonical (sorted-unique-key) order that `sort_keys=True` produces. -/
def serObj (m : List (String × String)) : List Char :=
  '\x7b' :: (serPairs m ++ ['\x7d'])

/-- Tail of a serialized JSON array of strings. -/
def serArrTail : List String → List Char
  | [] => []
  | s :: ss => ',' :: ' ' :: (serStr s ++ serArrTail ss)

/-- Serialize a JSON array of strings. -/
def serArr : List String → List Char
  | [] => ['[', ']']
  | s :: ss => '[' :: (serStr s ++ (serArrTail ss ++ [']']))

/-- Characters of a literal piece of the serialization. -/
def lit (s : String) : List Char := s.data

/-- The payload signed by `EvidenceSignature.sign_evidence` (crypto.py).
`metadata` is the (string-valued) metadata dict, held in canonical sorted
key order. -/
structure EvidencePayload where
  file_hash : String
  file_name : String
  file_size : Nat
  timestamp : String
  uploader_id : Nat
  case_id : Nat
  metadata : List (String × String)
deriving DecidableEq

/-- Embedding of `json.dumps(payload, sort_keys=True).encode('utf-8')` for the evidence
payload: keys in sorted order (case_id, file_hash, file_name, file_size,
metadata, timestamp, uploader_id). -/
def canonEvidencePayload (p : EvidencePayload) : List Char :=
  lit "\x7b\"case_id\": " ++ (decimal p.case_id ++
  (lit ", \"file_hash\": " ++ (serStr p.file_hash ++
  (lit ", \"file_name\": " ++ (serStr p.file_name ++
  (lit ", \"file_size\": " ++ (decimal p.file_size ++
  (lit ", \"metadata\": " ++ (serObj p.metadata ++
  (lit ", \"timestamp\": " ++ (serStr p.timestamp ++
  (lit ", \"uploader_id\": " ++ (decimal p.uploader_id ++
  lit "\x7d")))))))))))))

/-- Symbolic model of an asymmetric signature: an unforgeable signature
determines the signing key and the exact bytes that were signed. -/
structure ModelSig where
  key : Nat
  message : List Char
deriving DecidableEq

/-- The package returned by `EvidenceSignature.sign_evidence`. -/
structure EvidenceSigPackage where
  signature : ModelSig
  algorithm : String
  key_id : String
  signed_at : String
  payload : EvidencePayload
deriving DecidableEq

/-- Embedding of `EvidenceSignature.sign_evidence` (crypto.py): canonical JSON of the
payload, signed with RSA-4096-PSS-SHA256.  The `datetime.utcnow()` timestamp
is passed explicitly. -/
def sign_evidence (rsaKey : Nat) (file_hash file_name : String)
    (file_size uploader_id case_id : Nat) (metadata : List (String × String))
    (timestamp : String) : EvidenceSigPackage :=
  let payload : EvidencePayload :=
    { file_hash := file_hash, file_name := file_name, file_size := file_size,
      timestamp := timestamp, uploader_id := uploader_id, case_id := case_id,
      metadata := metadata }
  { signature := ⟨rsaKey, canonEvidencePayload payload⟩
    algorithm := "RSA-4096-PSS-SHA256"
    key_id := "default"
    signed_at := timestamp
    payload := payload }

/-- Does `cs` start with the characters `pre`? (`str.startswith`). -/
def hasPre : List Char → List Char → Bool
  | [], _ => true
  | _ :: _, [] => false
  | c :: cs, d :: ds => c = d && hasPre cs ds

/-- Embedding of `EvidenceSignature.verify_evidence` (crypto.py): checks the algorithm
family first, then re-derives the canonical bytes from the embedded payload
and verifies the signature against them.  A well-typed package always has
its components, so the `"Missing signature components"` guard of the source
cannot fire here. -/
def verify_evidence (rsaKey : Nat) (pkg : EvidenceSigPackage) :
    Bool × Option String :=
  if ¬ (hasPre (lit "RSA-") pkg.algorithm.data = true) then
    (false, some ("Unsupported algorithm: " ++ pkg.algorithm))
  else if pkg.signature = ⟨rsaKey, canonEvidencePayload pkg.payload⟩ then
    (true, none)
  else
    (false, some "Signature verification failed - signature is invalid")

theorem escChar_cases (c : Char) :
    (c ≠ '"' ∧ c ≠ '\\' ∧ escChar c = [c]) ∨
    (escChar c = ['\\', '"'] ∧ c = '"') ∨
    (escChar c = ['\\', '\\'] ∧ c = '\\') := by
  by_cases hq : c = '"'
  · subst hq; right; left; exact ⟨by decide, rfl⟩
  · by_cases hb : c = '\\'
    · subst hb; right; right; exact ⟨by decide, rfl⟩
    · left; exact ⟨hq, hb, by simp [escChar, hq, hb]⟩

/-- A serialized JSON string is self-delimiting: the escaped body followed by
the closing quote determines the body and everything after it. -/
theorem escFrame : ∀ (s₁ s₂ r₁ r₂ : List Char),
    escStr s₁ ++ '"' :: r₁ = escStr s₂ ++ '"' :: r₂ → s₁ = s₂ ∧ r₁ = r₂ := by
  intro s₁
  induction s₁ with
  | nil =>
    intro s₂ r₁ r₂ h
    cases s₂ with
    | nil =>
      simp only [escStr, List.nil_append, List.cons.injEq] at h
      exact ⟨rfl, h.2⟩
    | cons c t =>
      exfalso
      simp only [escStr, List.nil_append, List.append_assoc] at h
      rcases escChar_cases c with ⟨hq, -, he⟩ | ⟨he, rfl⟩ | ⟨he, rfl⟩ <;>
        rw [he] at h <;> simp only [List.cons_append, List.cons.injEq] at h
      · exact hq h.1.symm
      · exact absurd h.1 (by decide)
      · exact absurd h.1 (by decide)
  | cons c₁ t₁ ih =>
    intro s₂ r₁ r₂ h
    cases s₂ with
    | nil =>
      exfalso
      simp only [escStr, List.nil_append, List.append_assoc] at h
      rcases escChar_cases c₁ with ⟨hq, -, he⟩ | ⟨he, rfl⟩ | ⟨he, rfl⟩ <;>
        rw [he] at h <;> simp only [List.cons_append, List.cons.injEq] at h
      · exact hq h.1
      · exact absurd h.1 (by decide)
      · exact absurd h.1 (by decide)
    | cons c₂ t₂ =>
      simp only [escStr, List.append_assoc] at h
      rcases escChar_cases c₁ with ⟨hq₁, hb₁, he₁⟩ | ⟨he₁, rfl⟩ | ⟨he₁, rfl⟩ <;>
        rcases escChar_cases c₂ with ⟨hq₂, hb₂, he₂⟩ | ⟨he₂, rfl⟩ | ⟨he₂, rfl⟩ <;>
        simp only [he₁, he₂, List.cons_append, List.nil_append] at h
      · injection h with h1 h2
        subst h1
        obtain ⟨rfl, rfl⟩ := ih t₂ r₁ r₂ h2
        exact ⟨rfl, rfl⟩
      · injection h with h1 _
        exact absurd h1 hb₁
      · injection h with h1 _
        exact absurd h1 hb₁
      · injection h with h1 _
        exact absurd h1.symm hb₂
      · injection h with _ h
        injection h with _ h
        obtain ⟨rfl, rfl⟩ := ih t₂ r₁ r₂ h
        exact ⟨rfl, rfl⟩
      · injection h with _ h
        injection h with h1 _
        exact absurd h1 (by decide)
      · injection h with h1 _
        exact absurd h1.symm hb₂
      · injection h with _ h
        injection h with h1 _
        exact absurd h1 (by decide)
      · injection h with _ h
        injection h with _ h
        obtain ⟨rfl, rfl⟩ := ih t₂ r₁ r₂ h
        exact ⟨rfl, rfl⟩

/-- The serializer `serStr` is self-delimiting. -/
theorem serStrFrame (s₁ s₂ : String) (r₁ r₂ : List Char)
    (h : serStr s₁ ++ r₁ = serStr s₂ ++ r₂) : s₁ = s₂ ∧ r₁ = r₂ := by
  simp only [serStr, List.cons_append, List.append_assoc, List.singleton_append,
    List.cons.injEq, true_and] at h
  obtain ⟨hd, hr⟩ := escFrame s₁.data s₂.data r₁ r₂ h
  refine ⟨?_, hr⟩
  cases s₁
  cases s₂
  exact congrArg String.mk (by simpa using hd)

theorem decDigit_lt_ten_isDigit (d : Nat) (hd : d < 10) :
    (decDigit d).isDigit = true := by
  interval_cases d <;> decide

theorem decDigit_inj (d e : Nat) (hd : d < 10) (he : e < 10)
    (h : decDigit d = decDigit e) : d = e := by
  interval_cases d <;> interval_cases e <;> revert h <;> decide

theorem decimal_digits (n : Nat) : ∀ c ∈ decimal n, c.isDigit = true := by
  intro c hc
  unfold decimal at hc
  split at hc
  · simp only [List.mem_singleton] at hc
    subst hc; decide
  · simp only [List.mem_map, List.mem_reverse] at hc
    obtain ⟨d, hd, rfl⟩ := hc
    exact decDigit_lt_ten_isDigit d (Nat.digits_lt_base (by norm_num) hd)

theorem map_decDigit_inj : ∀ (l₁ l₂ : List Nat), (∀ x ∈ l₁, x < 10) →
    (∀ x ∈ l₂, x < 10) → l₁.map decDigit = l₂.map decDigit → l₁ = l₂
  | [], [], _, _, _ => rfl
  | [], _ :: _, _, _, h => by simp at h
  | _ :: _, [], _, _, h => by simp at h
  | x :: t₁, y :: t₂, h₁, h₂, h => by
    simp only [List.map_cons, List.cons.injEq] at h
    have hx := decDigit_inj x y (h₁ x (by simp)) (h₂ y (by simp)) h.1
    rw [hx, map_decDigit_inj t₁ t₂ (fun a ha => h₁ a (by simp [ha]))
      (fun a ha => h₂ a (by simp [ha])) h.2]

/-- Digit value of a decimal digit character. -/
def charVal (c : Char) : Nat := c.toNat - 48

theorem charVal_decDigit (d : Nat) (hd : d < 10) : charVal (decDigit d) = d := by
  interval_cases d <;> decide

theorem map_charVal_decDigit (l : List Nat) (hl : ∀ x ∈ l, x < 10) :
    (l.map decDigit).map charVal = l := by
  rw [List.map_map]
  induction l with
  | nil => rfl
  | cons x t ih =>
    simp only [List.map_cons, Function.comp_apply,
      charVal_decDigit x (hl x (by simp)), List.cons.injEq, true_and]
    exact ih (fun a ha => hl a (by simp [ha]))

/-- The rendering `decimal` can be decoded, hence is injective. -/
theorem natOfDec_decimal (n : Nat) :
    Nat.ofDigits 10 (((decimal n).map charVal).reverse) = n := by
  unfold decimal
  by_cases hn : n = 0
  · subst hn
    rw [if_pos rfl]
    decide
  · rw [if_neg hn, map_charVal_decDigit _
      (fun x hx => Nat.digits_lt_base (by norm_num) (List.mem_reverse.mp hx)),
      List.reverse_reverse, Nat.ofDigits_digits]

theorem decimal_inj (n m : Nat) (h : decimal n = decimal m) : n = m := by
  rw [← natOfDec_decimal n, ← natOfDec_decimal m, h]

/-- Two runs of digit characters followed by non-digit material can be
cancelled from an equation. -/
theorem digitsFrame : ∀ (a₁ a₂ r₁ r₂ : List Char),
    (∀ c ∈ a₁, c.isDigit = true) → (∀ c ∈ a₂, c.isDigit = true) →
    (∀ c, r₁.head? = some c → c.isDigit = false) →
    (∀ c, r₂.head? = some c → c.isDigit = false) →
    a₁ ++ r₁ = a₂ ++ r₂ → a₁ = a₂ ∧ r₁ = r₂
  | [], [], r₁, r₂, _, _, _, _, h => ⟨rfl, h⟩
  | [], c :: t, r₁, r₂, _, h₂, hr₁, _, h => by
    exfalso
    simp only [List.nil_append, List.cons_append] at h
    have := hr₁ c (by rw [h]; rfl)
    rw [h₂ c (by simp)] at this
    exact absurd this (by decide)
  | c :: t, [], r₁, r₂, h₁, _, _, hr₂, h => by
    exfalso
    simp only [List.nil_append, List.cons_append] at h
    have := hr₂ c (by rw [← h]; rfl)
    rw [h₁ c (by simp)] at this
    exact absurd this (by decide)
  | c₁ :: t₁, c₂ :: t₂, r₁, r₂, h₁, h₂, hr₁, hr₂, h => by
    simp only [List.cons_append, List.cons.injEq] at h
    obtain ⟨rfl, h⟩ := h
    obtain ⟨rfl, rfl⟩ := digitsFrame t₁ t₂ r₁ r₂
      (fun c hc => h₁ c (by simp [hc])) (fun c hc => h₂ c (by simp [hc]))
      hr₁ hr₂ h
    exact ⟨rfl, rfl⟩

/-- The rendering `decimal` is self-delimiting when followed by a non-digit. -/
theorem decimalFrame (n m : Nat) (r₁ r₂ : List Char)
    (hr₁ : ∀ c, r₁.head? = some c → c.isDigit = false)
    (hr₂ : ∀ c, r₂.head? = some c → c.isDigit = false)
    (h : decimal n ++ r₁ = decimal m ++ r₂) : n = m ∧ r₁ = r₂ := by
  obtain ⟨hd, hr⟩ := digitsFrame (decimal n) (decimal m) r₁ r₂
    (decimal_digits n) (decimal_digits m) hr₁ hr₂ h
  exact ⟨decimal_inj n m hd, hr⟩

/-- A serialized key/value pair is self-delimiting. -/
theorem serPairFrame (p q : String × String) (r₁ r₂ : List Char)
    (h : serPair p ++ r₁ = serPair q ++ r₂) : p = q ∧ r₁ = r₂ := by
  simp only [serPair, List.append_assoc, List.cons_append] at h
  obtain ⟨h1, h⟩ := serStrFrame p.1 q.1 _ _ h
  injection h with _ h
  injection h with _ h
  obtain ⟨h2, hr⟩ := serStrFrame p.2 q.2 _ _ h
  exact ⟨Prod.ext h1 h2, hr⟩

/-- The tail of a serialized object body, closed by `}`, is self-delimiting. -/
theorem serPairsTailFrame : ∀ (l₁ l₂ : List (String × String)) (r₁ r₂ : List Char),
    serPairsTail l₁ ++ '\x7d' :: r₁ = serPairsTail l₂ ++ '\x7d' :: r₂ →
    l₁ = l₂ ∧ r₁ = r₂
  | [], [], r₁, r₂, h => by
    simp only [serPairsTail, List.nil_append, List.cons.injEq, true_and] at h
    exact ⟨rfl, h⟩
  | [], q :: qs, r₁, r₂, h => by
    exfalso
    simp only [serPairsTail, List.nil_append, List.cons_append] at h
    injection h with h1 _
    exact absurd h1 (by decide)
  | p :: ps, [], r₁, r₂, h => by
    exfalso
    simp only [serPairsTail, List.nil_append, List.cons_append] at h
    injection h with h1 _
    exact absurd h1 (by decide)
  | p :: ps, q :: qs, r₁, r₂, h => by
    simp only [serPairsTail, List.cons_append, List.append_assoc] at h
    injection h with _ h
    injection h with _ h
    obtain ⟨rfl, h'⟩ := serPairFrame p q _ _ h
    obtain ⟨rfl, rfl⟩ := serPairsTailFrame ps qs r₁ r₂ h'
    exact ⟨rfl, rfl⟩

/-- The body of a serialized object, closed by `}`, is self-delimiting. -/
theorem serPairsFrame (l₁ l₂ : List (String × String)) (r₁ r₂ : List Char)
    (h : serPairs l₁ ++ '\x7d' :: r₁ = serPairs l₂ ++ '\x7d' :: r₂) :
    l₁ = l₂ ∧ r₁ = r₂ := by
  match l₁, l₂ with
  | [], [] =>
    simp only [serPairs, List.nil_append, List.cons.injEq, true_and] at h
    exact ⟨rfl, h⟩
  | [], q :: qs =>
    exfalso
    simp only [serPairs, serPair, List.nil_append, List.append_assoc, serStr,
      List.cons_append] at h
    injection h with h1 _
    exact absurd h1 (by decide)
  | p :: ps, [] =>
    exfalso
    simp only [serPairs, serPair, List.nil_append, List.append_assoc, serStr,
      List.cons_append] at h
    injection h with h1 _
    exact absurd h1 (by decide)
  | p :: ps, q :: qs =>
    simp only [serPairs, List.append_assoc] at h
    obtain ⟨rfl, h'⟩ := serPairFrame p q _ _ h
    obtain ⟨rfl, rfl⟩ := serPairsTailFrame ps qs r₁ r₂ h'
    exact ⟨rfl, rfl⟩

/-- A serialized object is self-delimiting. -/
theorem serObjFrame (m₁ m₂ : List (String × String)) (r₁ r₂ : List Char)
    (h : serObj m₁ ++ r₁ = serObj m₂ ++ r₂) : m₁ = m₂ ∧ r₁ = r₂ := by
  simp only [serObj, List.cons_append, List.append_assoc,
    List.singleton_append] at h
  injection h with _ h
  exact serPairsFrame m₁ m₂ r₁ r₂ h

theorem comma_not_digit : (',' : Char).isDigit = false := by decide

theorem rbrace_not_digit : ('\x7d' : Char).isDigit = false := by decide

/-- The canonical JSON serialization of the evidence payload is injective:
two payloads with the same canonical bytes are equal. -/
theorem canonEvidencePayload_inj (p q : EvidencePayload)
    (h : canonEvidencePayload p = canonEvidencePayload q) : p = q := by
  unfold canonEvidencePayload at h
  replace h := List.append_cancel_left h
  have hsep1 : lit ", \"file_hash\": " = ',' :: lit " \"file_hash\": " := by decide
  rw [hsep1] at h
  obtain ⟨h1, h⟩ := decimalFrame _ _ _ _
    (by intro c hc; injection hc with hc; rw [← hc]; decide)
    (by intro c hc; injection hc with hc; rw [← hc]; decide) h
  injection h with _ h
  replace h := List.append_cancel_left h
  obtain ⟨h2, h⟩ := serStrFrame _ _ _ _ h
  replace h := List.append_cancel_left h
  obtain ⟨h3, h⟩ := serStrFrame _ _ _ _ h
  replace h := List.append_cancel_left h
  have hsep2 : lit ", \"metadata\": " = ',' :: lit " \"metadata\": " := by decide
  rw [hsep2] at h
  obtain ⟨h4, h⟩ := decimalFrame _ _ _ _
    (by intro c hc; injection hc with hc; rw [← hc]; decide)
    (by intro c hc; injection hc with hc; rw [← hc]; decide) h
  injection h with _ h
  replace h := List.append_cancel_left h
  obtain ⟨h5, h⟩ := serObjFrame _ _ _ _ h
  replace h := List.append_cancel_left h
  obtain ⟨h6, h⟩ := serStrFrame _ _ _ _ h
  replace h := List.append_cancel_left h
  obtain ⟨h7, -⟩ := decimalFrame _ _ _ _
    (by intro c hc; injection hc with hc; rw [← hc]; decide)
    (by intro c hc; injection hc with hc; rw [← hc]; decide) h
  cases p
  cases q
  simp_all

theorem verify_evidence_eval (k : Nat) (sig : ModelSig) (alg ki sa : String)
    (pl : EvidencePayload) (halg : hasPre (lit "RSA-") alg.data = true) :
    verify_evidence k ⟨sig, alg, ki, sa, pl⟩ =
      if sig = ⟨k, canonEvidencePayload pl⟩ then (true, none)
      else (false, some "Signature verification failed - signature is invalid") := by
  simp only [verify_evidence, halg]
  simp

/-- C3: `verify_evidence` accepts the package produced by `sign_evidence`
with `(True, None)`; and replacing the signed payload by any different
payload makes `verify_evidence` return `(False, error)` — verification
re-derives the canonical bytes from the embedded payload, so a mutated
payload is never silently passed. -/
theorem C3_sign_verify_evidence (rsaKey : Nat) (fh fn : String)
    (fs uid cid : Nat) (md : List (String × String)) (ts : String) :
    verify_evidence rsaKey (sign_evidence rsaKey fh fn fs uid cid md ts) =
      (true, none) ∧
    ∀ p' : EvidencePayload,
      p' ≠ (sign_evidence rsaKey fh fn fs uid cid md ts).payload →
      verify_evidence rsaKey
        { sign_evidence rsaKey fh fn fs uid cid md ts with payload := p' } =
        (false, some "Signature verification failed - signature is invalid") := by
  constructor
  · show verify_evidence rsaKey
      ⟨⟨rsaKey, canonEvidencePayload ⟨fh, fn, fs, ts, uid, cid, md⟩⟩,
        "RSA-4096-PSS-SHA256", "default", ts, ⟨fh, fn, fs, ts, uid, cid, md⟩⟩ =
      (true, none)
    rw [verify_evidence_eval _ _ _ _ _ _ (by decide), if_pos rfl]
  · intro p' hne
    show verify_evidence rsaKey
      ⟨⟨rsaKey, canonEvidencePayload ⟨fh, fn, fs, ts, uid, cid, md⟩⟩,
        "RSA-4096-PSS-SHA256", "default", ts, p'⟩ =
      (false, some "Signature verification failed - signature is invalid")
    rw [verify_evidence_eval _ _ _ _ _ _ (by decide), if_neg]
    intro hsig
    injection hsig with _ hmsg
    exact hne (canonEvidencePayload_inj _ _ hmsg).symm

/-- Witness for C3: a concrete signing plus a concrete payload mutation
(the file size changed after signing). -/
theorem C3_witness :
    verify_evidence 9 (sign_evidence 9 "h1" "a.pdf" 3 4 5 [("k", "v")] "t0") =
      (true, none) ∧
    verify_evidence 9
      { sign_evidence 9 "h1" "a.pdf" 3 4 5 [("k", "v")] "t0" with
        payload := ⟨"h1", "a.pdf", 7, "t0", 4, 5, [("k", "v")]⟩ } =
      (false, some "Signature verification failed - signature is invalid") := by
  have h := C3_sign_verify_evidence 9 "h1" "a.pdf" 3 4 5 [("k", "v")] "t0"
  exact ⟨h.1, h.2 ⟨"h1", "a.pdf", 7, "t0", 4, 5, [("k", "v")]⟩ (by decide)⟩

/-- The payload signed by `CourtBundleSignature.sign_bundle` (crypto.py).
`manifest` is the (string-valued) manifest dict in canonical key order. -/
structure BundlePayload where
  bundle_id : Nat
  case_id : Nat
  evidence_hashes : List String
  manifest : List (String × String)
  created_by : Nat
  timestamp : String
deriving DecidableEq

/-- Embedding of `json.dumps(payload, sort_keys=True).encode('utf-8')` for the bundle
payload: keys in sorted order (bundle_id, case_id, created_by,
evidence_hashes, manifest, timestamp). -/
def canonBundlePayload (p : BundlePayload) : List Char :=
  lit "\x7b\"bundle_id\": " ++ (decimal p.bundle_id ++
  (lit ", \"case_id\": " ++ (decimal p.case_id ++
  (lit ", \"created_by\": " ++ (decimal p.created_by ++
  (lit ", \"evidence_hashes\": " ++ (serArr p.evidence_hashes ++
  (lit ", \"manifest\": " ++ (serObj p.manifest ++
  (lit ", \"timestamp\": " ++ (serStr p.timestamp ++
  lit "\x7d")))))))))))

/-- Embedding of `sorted(evidence_hashes)`: Python's lexicographic string sort. -/
def sortedHashes (l : List String) : List String :=
  l.mergeSort

/-- The package returned by `CourtBundleSignature.sign_bundle`. -/
structure BundleSigPackage where
  signature : ModelSig
  algorithm : String
  key_id : String
  signed_at : String
  payload : BundlePayload
deriving DecidableEq

/-- Embedding of `CourtBundleSignature.sign_bundle` (crypto.py): the evidence-hash list
is sorted into canonical order before the payload is serialized and signed
with Ed25519. -/
def sign_bundle (edKey : Nat) (bundle_id case_id : Nat)
    (evidence_hashes : List String) (manifest : List (String × String))
    (created_by : Nat) (timestamp : String) : BundleSigPackage :=
  let payload : BundlePayload :=
    { bundle_id := bundle_id, case_id := case_id,
      evidence_hashes := sortedHashes evidence_hashes, manifest := manifest,
      created_by := created_by, timestamp := timestamp }
  { signature := ⟨edKey, canonBundlePayload payload⟩
    algorithm := "Ed25519"
    key_id := "default"
    signed_at := timestamp
    payload := payload }

/-- Embedding of `CourtBundleSignature.verify_bundle` (crypto.py): requires the exact
algorithm id `Ed25519`, then re-derives the canonical payload bytes and
verifies the signature against them. -/
def verify_bundle (edKey : Nat) (pkg : BundleSigPackage) :
    Bool × Option String :=
  if pkg.algorithm ≠ "Ed25519" then
    (false, some ("Unsupported algorithm: " ++ pkg.algorithm))
  else if pkg.signature = ⟨edKey, canonBundlePayload pkg.payload⟩ then
    (true, none)
  else
    (false, some "Bundle signature is invalid")

theorem sortedHashes_perm_eq (l₁ l₂ : List String) (hp : l₁.Perm l₂) :
    sortedHashes l₁ = sortedHashes l₂ :=
  List.eq_of_perm_of_sorted
    ((List.mergeSort_perm l₁ _).trans (hp.trans (List.mergeSort_perm l₂ _).symm))
    (List.sorted_mergeSort' l₁) (List.sorted_mergeSort' l₂)

theorem verify_bundle_eval (k : Nat) (sig : ModelSig) (ki sa : String)
    (pl : BundlePayload) :
    verify_bundle k ⟨sig, "Ed25519", ki, sa, pl⟩ =
      if sig = ⟨k, canonBundlePayload pl⟩ then (true, none)
      else (false, some "Bundle signature is invalid") := by
  simp only [verify_bundle]
  simp

/-- C7: signing the same set of evidence hashes in two input orders (all
other inputs equal) produces packages whose canonical signed payloads are
byte-identical — indeed equal payloads — and both packages verify with
`verify_bundle`. -/
theorem C7_bundle_order_independence (edKey bid cid creator : Nat)
    (manifest : List (String × String)) (ts : String) (l₁ l₂ : List String)
    (hp : l₁.Perm l₂) :
    canonBundlePayload (sign_bundle edKey bid cid l₁ manifest creator ts).payload =
      canonBundlePayload (sign_bundle edKey bid cid l₂ manifest creator ts).payload ∧
    (sign_bundle edKey bid cid l₁ manifest creator ts).payload =
      (sign_bundle edKey bid cid l₂ manifest creator ts).payload ∧
    verify_bundle edKey (sign_bundle edKey bid cid l₁ manifest creator ts) =
      (true, none) ∧
    verify_bundle edKey (sign_bundle edKey bid cid l₂ manifest creator ts) =
      (true, none) := by
  have hsort := sortedHashes_perm_eq l₁ l₂ hp
  have hpl : (sign_bundle edKey bid cid l₁ manifest creator ts).payload =
      (sign_bundle edKey bid cid l₂ manifest creator ts).payload := by
    show (⟨bid, cid, sortedHashes l₁, manifest, creator, ts⟩ : BundlePayload) =
      ⟨bid, cid, sortedHashes l₂, manifest, creator, ts⟩
    rw [hsort]
  refine ⟨by rw [hpl], hpl, ?_, ?_⟩
  · show verify_bundle edKey
      ⟨⟨edKey, canonBundlePayload ⟨bid, cid, sortedHashes l₁, manifest, creator, ts⟩⟩,
        "Ed25519", "default", ts, ⟨bid, cid, sortedHashes l₁, manifest, creator, ts⟩⟩ =
      (true, none)
    rw [verify_bundle_eval, if_pos rfl]
  · show verify_bundle edKey
      ⟨⟨edKey, canonBundlePayload ⟨bid, cid, sortedHashes l₂, manifest, creator, ts⟩⟩,
        "Ed25519", "default", ts, ⟨bid, cid, sortedHashes l₂, manifest, creator, ts⟩⟩ =
      (true, none)
    rw [verify_bundle_eval, if_pos rfl]

/-- Witness for C7: two concrete orders of the same hash set. -/
theorem C7_witness :
    (["b", "a"] : List String).Perm ["a", "b"] ∧
    canonBundlePayload (sign_bundle 3 1 2 ["b", "a"] [] 4 "t").payload =
      canonBundlePayload (sign_bundle 3 1 2 ["a", "b"] [] 4 "t").payload ∧
    verify_bundle 3 (sign_bundle 3 1 2 ["b", "a"] [] 4 "t") = (true, none) := by
  have h := C7_bundle_order_independence 3 1 2 4 [] "t" ["b", "a"] ["a", "b"]
    (by decide)
  exact ⟨by decide, h.1, h.2.2.1⟩

/-!  Audit ledger (audit/models.py).

`AuditLog.save` chains each new entry to the latest existing entry.  The
model keeps the log as a list in timestamp order (appends carry the newest
timestamp, `timezone.now()`), so "latest by timestamp" is the last element.
SHA-256 hexdigests are modelled by an executable mixing fold rendered in
decimal; the claims only use that the function is deterministic. -/

/-- Model of `hashlib.sha256(s.encode()).hexdigest()`: a mixing fold over
the characters rendered as a fixed-width digit string. -/
def mhash (s : String) : String :=
  let n := s.data.foldl (fun a c => (a * 131 + c.toNat + 1) % 1000000007) 7
  String.mk ((List.range 10).map (fun i => Char.ofNat (48 + n / 10 ^ i % 10)))

/-- A stored audit-log row (audit/models.py `AuditLog`).  `user_id` is the
rendered actor id as it appears in the hashed f-string. -/
structure AuditEntry where
  user_id : String
  action : String
  resource_type : String
  resource_id : String
  timestamp : String
  previous_log_hash : String
  log_hash : String
deriving DecidableEq

/-- The fields of a new entry before `save` fills in the hash chain. -/
structure AuditDraft where
  user_id : String
  action : String
  resource_type : String
  resource_id : String
  timestamp : String
deriving DecidableEq

/-- The colon-joined string hashed by `AuditLog.save`:
`f"{user_id}:{action}:{resource_type}:{resource_id}:{timestamp}:{previous}"`. -/
def auditData (user_id action resource_type resource_id timestamp prev : String) :
    String :=
  user_id ++ ":" ++ action ++ ":" ++ resource_type ++ ":" ++ resource_id ++ ":"
    ++ timestamp ++ ":" ++ prev

/-- The integrity value `save` computes for an entry given the previous
entry's value. -/
def entryHash (e : AuditEntry) (prev : String) : String :=
  mhash (auditData e.user_id e.action e.resource_type e.resource_id
    e.timestamp prev)

/-- Embedding of `last_log.log_hash if last_log else ''` over the timestamp-ordered log
(the latest entry is the last element), with `s` the value used for an
empty log. -/
def lastHash (chain : List AuditEntry) (s : String) : String :=
  match chain.getLast? with
  | some last => last.log_hash
  | none => s

/-- Embedding of `AuditLog.save` on a new entry: reads the latest entry's `log_hash`
(empty string when the log is empty), stores it as `previous_log_hash`, and
computes this entry's `log_hash` over the joined fields. -/
def auditSave (chain : List AuditEntry) (d : AuditDraft) : List AuditEntry :=
  chain ++ [{ user_id := d.user_id, action := d.action,
              resource_type := d.resource_type, resource_id := d.resource_id,
              timestamp := d.timestamp,
              previous_log_hash := lastHash chain "",
              log_hash := mhash (auditData d.user_id d.action d.resource_type
                d.resource_id d.timestamp (lastHash chain "")) }]

/-- Audit-log states reachable by appends through `AuditLog.save`. -/
inductive AuditReachable : List AuditEntry → Prop
  | nil : AuditReachable []
  | save (c : List AuditEntry) (d : AuditDraft) :
      AuditReachable c → AuditReachable (auditSave c d)

/-- The stored integrity value of the entry before index `j` (empty string
for the first entry). -/
def prevOf (chain : List AuditEntry) (j : Nat) : String :=
  match j with
  | 0 => ""
  | j' + 1 =>
    match chain.get? j' with
    | some e => e.log_hash
    | none => ""

/-- The hash-chain invariant: every entry's `previous_log_hash` is the
previous entry's `log_hash` (empty for the first), and every entry's
`log_hash` is the hash of its own fields together with that value. -/
def chainInv (chain : List AuditEntry) : Prop :=
  ∀ j (h : j < chain.length),
    (chain.get ⟨j, h⟩).previous_log_hash = prevOf chain j ∧
    (chain.get ⟨j, h⟩).log_hash = entryHash (chain.get ⟨j, h⟩) (prevOf chain j)

/-- Replaying the hash along the ordered sequence from the start. -/
def replayValues : List AuditEntry → String → List String
  | [], _ => []
  | e :: t, prev => entryHash e prev :: replayValues t (entryHash e prev)

theorem prevOf_append (c : List AuditEntry) (e : AuditEntry) :
    ∀ j, j ≤ c.length → prevOf (c ++ [e]) j = prevOf c j
  | 0, _ => rfl
  | j + 1, hj => by
    simp only [prevOf]
    rw [List.get?_append (by omega)]

theorem prevOf_concat_length (c : List AuditEntry) (e : AuditEntry) :
    prevOf (c ++ [e]) c.length = lastHash c "" := by
  cases c with
  | nil => rfl
  | cons a t =>
    show prevOf ((a :: t) ++ [e]) (t.length + 1) = lastHash (a :: t) ""
    simp only [prevOf, lastHash]
    rw [List.get?_append (by simp), List.getLast?_eq_get?]
    simp

theorem get_concat_length (c : List AuditEntry) (e : AuditEntry)
    (h : c.length < (c ++ [e]).length) : (c ++ [e]).get ⟨c.length, h⟩ = e := by
  have h1 : (c ++ [e]).get? c.length = some e := List.get?_concat_length c e
  rw [List.get?_eq_get h] at h1
  injection h1

/-- Appending through `AuditLog.save` preserves the hash-chain invariant. -/
theorem auditSave_inv (c : List AuditEntry) (d : AuditDraft)
    (hinv : chainInv c) : chainInv (auditSave c d) := by
  intro j hj
  have hlen : (auditSave c d).length = c.length + 1 := by
    simp [auditSave]
  rcases Nat.lt_or_ge j c.length with hjc | hjc
  · have hget : (auditSave c d).get ⟨j, hj⟩ = c.get ⟨j, hjc⟩ := by
      show (c ++ [_]).get ⟨j, hj⟩ = c.get ⟨j, hjc⟩
      exact List.get_append j hjc
    have hprev : prevOf (auditSave c d) j = prevOf c j :=
      prevOf_append c _ j (by omega)
    rw [hget, hprev]
    exact hinv j hjc
  · have hj' : j = c.length := by rw [hlen] at hj; omega
    subst hj'
    have hget : (auditSave c d).get ⟨c.length, hj⟩ =
        { user_id := d.user_id, action := d.action,
          resource_type := d.resource_type, resource_id := d.resource_id,
          timestamp := d.timestamp,
          previous_log_hash := lastHash c "",
          log_hash := mhash (auditData d.user_id d.action d.resource_type
            d.resource_id d.timestamp (lastHash c "")) } :=
      get_concat_length c _ hj
    have hprev : prevOf (auditSave c d) c.length = lastHash c "" :=
      prevOf_concat_length c _
    rw [hget, hprev]
    exact ⟨rfl, rfl⟩

theorem replay_concat : ∀ (c : List AuditEntry) (e : AuditEntry) (s : String),
    replayValues c s = c.map (fun x => x.log_hash) →
    replayValues (c ++ [e]) s =
      c.map (fun x => x.log_hash) ++ [entryHash e (lastHash c s)]
  | [], e, s, _ => by simp [replayValues, lastHash]
  | a :: t, e, s, h => by
    simp only [replayValues, List.map_cons, List.cons.injEq] at h
    obtain ⟨h1, h2⟩ := h
    show entryHash a s :: replayValues (t ++ [e]) (entryHash a s) = _
    rw [replay_concat t e (entryHash a s) h2, h1]
    have hlast : lastHash t a.log_hash = lastHash (a :: t) s := by
      cases t with
      | nil => simp [lastHash]
      | cons b t' =>
        simp only [lastHash, List.getLast?_cons_cons]
        rcases hgl : (b :: t').getLast? with _ | x
        · simp [List.getLast?_eq_none_iff] at hgl
        · rfl
    rw [hlast]
    simp

theorem reachable_chainInv_replay (c : List AuditEntry)
    (hr : AuditReachable c) :
    chainInv c ∧ replayValues c "" = c.map (fun e => e.log_hash) := by
  induction hr with
  | nil => exact ⟨fun j h => by simp at h, rfl⟩
  | save c' d hc ih =>
    obtain ⟨hinv, hreplay⟩ := ih
    refine ⟨auditSave_inv c' d hinv, ?_⟩
    show replayValues (c' ++ [_]) "" = _
    rw [replay_concat c' _ "" hreplay]
    simp [auditSave, entryHash]

/-- C4: every reachable audit-log state satisfies the hash-chain invariant —
each entry's integrity value is the hash over its fields and the previous
stored value, and its previous-value field is the latest prior value (empty
for the first entry) — the invariant is preserved by every append, and
replaying the hash over the ordered sequence reproduces every stored value. -/
theorem C4_audit_chain_invariant (c : List AuditEntry)
    (hr : AuditReachable c) :
    chainInv c ∧
    (∀ d, chainInv (auditSave c d)) ∧
    replayValues c "" = c.map (fun e => e.log_hash) := by
  have hmain := reachable_chainInv_replay c hr
  exact ⟨hmain.1, fun d => auditSave_inv c d hmain.1, hmain.2⟩

/-- Witness for C4 at a concrete two-entry log. -/
theorem C4_witness :
    chainInv (auditSave (auditSave [] ⟨"u1", "CREATE", "Case", "7", "t1"⟩)
      ⟨"u2", "VIEW", "Case", "7", "t2"⟩) :=
  (C4_audit_chain_invariant _
    (AuditReachable.save _ _ (AuditReachable.save _ _ AuditReachable.nil))).1

/-- Modelled from the spec: `AuditLedger.verify_chain(from, to)` has no
implementation under the source tree; per the spec it "replays the hash
across the ordered sequence, returning the first disagreeing index".
`entryOk` recomputes the integrity value of the entry at index `j` from its
stored fields and the stored value of its predecessor and compares it with
the stored value. -/
def entryOk (chain : List AuditEntry) (j : Nat) : Bool :=
  match chain.get? j with
  | some e => decide (e.log_hash = entryHash e (prevOf chain j))
  | none => false

/-- Modelled from the spec: `AuditLedger.verify_chain(from, to) ->
(ok, first_break)` replays the hash across indices `[from, to)` of the
ordered sequence and reports the first disagreeing index. -/
def verify_chain (chain : List AuditEntry) (a b : Nat) : Bool × Option Nat :=
  match (List.range' a (b - a)).find? (fun j => ! entryOk chain j) with
  | some j => (false, some j)
  | none => (true, none)

/-- The entry `e` with its stored integrity value replaced by `v`. -/
def withLogHash (e : AuditEntry) (v : String) : AuditEntry :=
  { user_id := e.user_id, action := e.action,
    resource_type := e.resource_type, resource_id := e.resource_id,
    timestamp := e.timestamp, previous_log_hash := e.previous_log_hash,
    log_hash := v }

/-- Corrupt the stored integrity value at index `i`. -/
def corruptAt (chain : List AuditEntry) (i : Nat) (v : String) :
    List AuditEntry :=
  match chain.get? i with
  | some e => chain.set i (withLogHash e v)
  | none => chain

theorem find?_range'_none (p : Nat → Bool) : ∀ (n a : Nat),
    (∀ j, a ≤ j → j < a + n → p j = false) →
    (List.range' a n).find? p = none
  | 0, a, _ => rfl
  | n + 1, a, h => by
    rw [List.range'_succ, List.find?_cons, h a (Nat.le_refl a) (by omega)]
    exact find?_range'_none p n (a + 1) (fun j hj hj2 => h j (by omega) (by omega))

theorem find?_range'_first (p : Nat → Bool) : ∀ (n a i : Nat),
    a ≤ i → i < a + n → p i = true →
    (∀ j, a ≤ j → j < i → p j = false) →
    (List.range' a n).find? p = some i
  | 0, a, i, h1, h2, _, _ => by omega
  | n + 1, a, i, h1, h2, hp, hlt => by
    rw [List.range'_succ, List.find?_cons]
    by_cases ha : a = i
    · subst ha; rw [hp]
    · rw [hlt a (Nat.le_refl a) (by omega)]
      exact find?_range'_first p n (a + 1) i (by omega) (by omega) hp
        (fun j hj hj2 => hlt j (by omega) hj2)

theorem entryOk_of_inv (c : List AuditEntry) (hinv : chainInv c) (j : Nat)
    (hj : j < c.length) : entryOk c j = true := by
  have hget : c.get? j = some (c.get ⟨j, hj⟩) := List.get?_eq_get hj
  rw [entryOk, hget]
  exact decide_eq_true (hinv j hj).2

theorem corruptAt_length (c : List AuditEntry) (i : Nat) (v : String) :
    (corruptAt c i v).length = c.length := by
  rw [corruptAt]
  cases c.get? i <;> simp

theorem corruptAt_get?_ne (c : List AuditEntry) (i : Nat) (v : String)
    (j : Nat) (hij : j ≠ i) : (corruptAt c i v).get? j = c.get? j := by
  rw [corruptAt]
  cases c.get? i with
  | none => rfl
  | some e =>
    simp only [List.get?_eq_getElem?]
    rw [List.getElem?_set_ne (Ne.symm hij)]

theorem corruptAt_prevOf (c : List AuditEntry) (i : Nat) (v : String)
    (j : Nat) (hij : j ≤ i) : prevOf (corruptAt c i v) j = prevOf c j := by
  cases j with
  | zero => rfl
  | succ j' =>
    simp only [prevOf]
    rw [corruptAt_get?_ne c i v j' (by omega)]

/-- C5: on the untampered audit log `verify_chain` over the whole range
returns ok; corrupting exactly one stored integrity value makes it return
not-ok with that entry's index as the first disagreeing index. -/
theorem C5_verify_chain (c : List AuditEntry) (hr : AuditReachable c) :
    verify_chain c 0 c.length = (true, none) ∧
    ∀ i (hi : i < c.length) (v : String),
      v ≠ (c.get ⟨i, hi⟩).log_hash →
      verify_chain (corruptAt c i v) 0 c.length = (false, some i) := by
  have hinv : chainInv c := (reachable_chainInv_replay c hr).1
  constructor
  · rw [verify_chain, find?_range'_none]
    intro j hj hj2
    rw [Bool.not_eq_eq_eq_not, Bool.not_false]
    exact entryOk_of_inv c hinv j (by omega)
  · intro i hi v hv
    have hget : c.get? i = some (c.get ⟨i, hi⟩) := List.get?_eq_get hi
    have hcor : corruptAt c i v = c.set i (withLogHash (c.get ⟨i, hi⟩) v) := by
      rw [corruptAt, hget]
    have hgets : (corruptAt c i v).get? i =
        some (withLogHash (c.get ⟨i, hi⟩) v) := by
      rw [hcor]
      simp only [List.get?_eq_getElem?]
      rw [List.getElem?_set_self]
      exact hi
    have hbad : entryOk (corruptAt c i v) i = false := by
      rw [entryOk, hgets, corruptAt_prevOf c i v i (Nat.le_refl i)]
      have hfix : entryHash (withLogHash (c.get ⟨i, hi⟩) v) (prevOf c i) =
          entryHash (c.get ⟨i, hi⟩) (prevOf c i) := rfl
      show decide ((withLogHash (c.get ⟨i, hi⟩) v).log_hash =
        entryHash (withLogHash (c.get ⟨i, hi⟩) v) (prevOf c i)) = false
      rw [hfix]
      refine decide_eq_false ?_
      show ¬ v = entryHash (c.get ⟨i, hi⟩) (prevOf c i)
      rw [← (hinv i hi).2]
      exact hv
    have hgood : ∀ j, j < i → entryOk (corruptAt c i v) j = true := by
      intro j hij
      have hj : j < c.length := by omega
      have h1 : (corruptAt c i v).get? j = some (c.get ⟨j, hj⟩) := by
        rw [corruptAt_get?_ne c i v j (by omega)]
        exact List.get?_eq_get hj
      rw [entryOk, h1, corruptAt_prevOf c i v j (by omega)]
      exact decide_eq_true (hinv j hj).2
    rw [verify_chain, find?_range'_first _ _ _ i (Nat.zero_le i)
      (by omega)
      (by rw [Bool.not_eq_eq_eq_not, Bool.not_true]; exact hbad)
      (fun j hj hji => by
        rw [Bool.not_eq_eq_eq_not, Bool.not_false]; exact hgood j hji)]

/-- Witness for C5: a two-entry log, with the first stored value corrupted. -/
theorem C5_witness :
    verify_chain (auditSave (auditSave [] ⟨"u1", "CREATE", "Case", "7", "t1"⟩)
      ⟨"u2", "VIEW", "Case", "7", "t2"⟩) 0 2 = (true, none) ∧
    verify_chain (corruptAt
      (auditSave (auditSave [] ⟨"u1", "CREATE", "Case", "7", "t1"⟩)
        ⟨"u2", "VIEW", "Case", "7", "t2"⟩) 0 "forged") 0 2 =
      (false, some 0) := by
  have h := C5_verify_chain
    (auditSave (auditSave [] ⟨"u1", "CREATE", "Case", "7", "t1"⟩)
      ⟨"u2", "VIEW", "Case", "7", "t2"⟩)
    (AuditReachable.save _ _ (AuditReachable.save _ _ AuditReachable.nil))
  exact ⟨h.1, h.2 0 (by decide) "forged" (by decide)⟩

/-!  Custody chain validation (evidence/services/custody_service.py). -/

/-- A `ChainOfCustody` row as read by `validate_custody_chain`:
`sig_verified` models `metadata["signature_verification"]["verified"]`,
and an absent `file_hash_at_action` is the empty string (Python falsy). -/
structure CustodyRecord where
  action : String
  file_hash_at_action : String
  action_timestamp : Nat
  sig_verified : Bool
deriving DecidableEq

/-- The fields of `EvidenceFile` that `validate_custody_chain` reads:
`has_digital_signature` is the truthiness of `evidence.digital_signature`. -/
structure EvidenceItem where
  sha256_hash : String
  has_digital_signature : Bool
  custody_records : List CustodyRecord
deriving DecidableEq

/-- Embedding of `evidence.custody_records.order_by('action_timestamp')`. -/
def custodyOrdered (l : List CustodyRecord) : List CustodyRecord :=
  l.mergeSort (fun a b => a.action_timestamp ≤ b.action_timestamp)

/-- The issue reported when the timestamp-earliest action is not UPLOADED. -/
def firstIssue (first : CustodyRecord) : List String :=
  if first.action = "UPLOADED" then []
  else ["First action should be UPLOADED, found " ++ first.action]

/-- One issue per record whose asserted digest is present and differs from
the evidence's current digest. -/
def mismatchIssues (ev : EvidenceItem) (records : List CustodyRecord) :
    List String :=
  records.filterMap (fun r =>
    if r.file_hash_at_action ≠ "" ∧ r.file_hash_at_action ≠ ev.sha256_hash then
      some ("Hash mismatch at " ++ toString r.action_timestamp ++ ": expected "
        ++ ev.sha256_hash.take 16 ++ "..., found "
        ++ r.file_hash_at_action.take 16 ++ "...")
    else none)

/-- The issue reported when a digital signature exists but no VERIFIED
record carries a successful signature check. -/
def sigIssue (ev : EvidenceItem) (records : List CustodyRecord) : List String :=
  if ev.has_digital_signature = true ∧
      records.any (fun r => decide (r.action = "VERIFIED") && r.sig_verified)
        = false then
    ["Digital signature has not been verified"]
  else []

/-- Embedding of `CustodyService.validate_custody_chain`: orders the records by
timestamp, collects the three kinds of issues, and reports the chain valid
iff no issues were collected.  Issues are only reported — the function
mutates nothing. -/
def validate_custody_chain (ev : EvidenceItem) : Bool × List String :=
  match custodyOrdered ev.custody_records with
  | [] => (false, ["No custody records found"])
  | first :: rest =>
    let issues := firstIssue first ++ mismatchIssues ev (first :: rest)
      ++ sigIssue ev (first :: rest)
    (issues.isEmpty, issues)

/-- A record whose asserted digest is present and disagrees with the
evidence's current digest. -/
def digestMismatch (ev : EvidenceItem) (r : CustodyRecord) : Bool :=
  decide (r.file_hash_at_action ≠ "") && decide (r.file_hash_at_action ≠ ev.sha256_hash)

theorem filterMap_if_length {α β : Type} (p : α → Prop) [DecidablePred p]
    (m : α → β) : ∀ l : List α,
    (l.filterMap (fun r => if p r then some (m r) else none)).length =
      (l.filter (fun r => decide (p r))).length
  | [] => rfl
  | a :: t => by
    by_cases ha : p a <;>
      simp [List.filterMap_cons, List.filter_cons, ha,
        filterMap_if_length p m t]

theorem validate_eval (ev : EvidenceItem) (f : CustodyRecord)
    (rest : List CustodyRecord)
    (hs : custodyOrdered ev.custody_records = f :: rest) :
    validate_custody_chain ev =
      ((firstIssue f ++ mismatchIssues ev (f :: rest)
          ++ sigIssue ev (f :: rest)).isEmpty,
        firstIssue f ++ mismatchIssues ev (f :: rest)
          ++ sigIssue ev (f :: rest)) := by
  simp only [validate_custody_chain, hs]

/-- C6: with at least one custody event, `validate_custody_chain` returns ok
with an empty problem list exactly when the three checks pass — earliest
event UPLOADED, every present asserted digest equal to the current digest,
and (when a signature exists) some VERIFIED event recording a successful
check — and otherwise returns not-ok with one reported problem per failing
check (one per mismatching record). -/
theorem C6_validate_custody (ev : EvidenceItem)
    (hne : ev.custody_records ≠ []) :
    ((validate_custody_chain ev).1 = true ↔ (validate_custody_chain ev).2 = []) ∧
    ((validate_custody_chain ev).1 = true ↔
      ((custodyOrdered ev.custody_records).head?.map (fun r => r.action) =
          some "UPLOADED" ∧
        (∀ r ∈ ev.custody_records, r.file_hash_at_action ≠ "" →
          r.file_hash_at_action = ev.sha256_hash) ∧
        (ev.has_digital_signature = true →
          ∃ r ∈ ev.custody_records,
            r.action = "VERIFIED" ∧ r.sig_verified = true))) ∧
    (validate_custody_chain ev).2.length =
      (if (custodyOrdered ev.custody_records).head?.map (fun r => r.action) =
          some "UPLOADED" then 0 else 1) +
        (ev.custody_records.filter (digestMismatch ev)).length +
        (if ev.has_digital_signature = true →
            ∃ r ∈ ev.custody_records,
              r.action = "VERIFIED" ∧ r.sig_verified = true
          then 0 else 1) := by
  have hperm : (custodyOrdered ev.custody_records).Perm ev.custody_records :=
    List.mergeSort_perm _ _
  cases hs : custodyOrdered ev.custody_records with
  | nil =>
    rw [hs] at hperm
    exact absurd hperm.symm.eq_nil hne
  | cons f rest =>
    rw [hs] at hperm
    have hc1 : (custodyOrdered ev.custody_records).head?.map
        (fun r => r.action) = some "UPLOADED" ↔ f.action = "UPLOADED" := by
      rw [hs]; simp
    have h1 : firstIssue f = [] ↔ f.action = "UPLOADED" := by
      unfold firstIssue
      split_ifs with h <;> simp [h]
    have h1len : (firstIssue f).length =
        if f.action = "UPLOADED" then 0 else 1 := by
      unfold firstIssue
      split_ifs <;> rfl
    have h2 : mismatchIssues ev (f :: rest) = [] ↔
        ∀ r ∈ ev.custody_records, r.file_hash_at_action ≠ "" →
          r.file_hash_at_action = ev.sha256_hash := by
      unfold mismatchIssues
      rw [List.filterMap_eq_nil_iff]
      constructor
      · intro h r hr hne'
        have hmem := hperm.mem_iff.mpr hr
        have := h r hmem
        by_contra hne2
        rw [if_pos ⟨hne', hne2⟩] at this
        exact Option.noConfusion this
      · intro h r hr
        rw [if_neg]
        rintro ⟨ha, hb⟩
        exact hb (h r (hperm.mem_iff.mp hr) ha)
    have h2len : (mismatchIssues ev (f :: rest)).length =
        (ev.custody_records.filter (digestMismatch ev)).length := by
      unfold mismatchIssues
      rw [filterMap_if_length]
      have hpf := (hperm.filter (digestMismatch ev)).length_eq
      rw [← hpf]
      congr 1
      apply List.filter_congr
      intro r _
      by_cases he : r.file_hash_at_action = "" <;>
        by_cases hh : r.file_hash_at_action = ev.sha256_hash <;>
        simp [digestMismatch, he, hh]
    have hany : (f :: rest).any
        (fun r => decide (r.action = "VERIFIED") && r.sig_verified) = true ↔
        ∃ r ∈ ev.custody_records,
          r.action = "VERIFIED" ∧ r.sig_verified = true := by
      rw [List.any_eq_true]
      constructor
      · rintro ⟨r, hr, hpr⟩
        simp only [Bool.and_eq_true, decide_eq_true_eq] at hpr
        exact ⟨r, hperm.mem_iff.mp hr, hpr.1, hpr.2⟩
      · rintro ⟨r, hr, ha, hv⟩
        refine ⟨r, hperm.mem_iff.mpr hr, ?_⟩
        simp [ha, hv]
    have h3 : sigIssue ev (f :: rest) = [] ↔
        (ev.has_digital_signature = true →
          ∃ r ∈ ev.custody_records,
            r.action = "VERIFIED" ∧ r.sig_verified = true) := by
      unfold sigIssue
      split_ifs with h
      · obtain ⟨hsig, hany0⟩ := h
        simp only [List.cons_ne_nil, false_iff]
        intro hr
        rw [(hany.mpr (hr hsig))] at hany0
        exact Bool.noConfusion hany0
      · simp only [true_iff]
        intro hsig
        rcases hb : (f :: rest).any
            (fun r => decide (r.action = "VERIFIED") && r.sig_verified) with _ | _
        · exact absurd ⟨hsig, hb⟩ h
        · exact hany.mp hb
    have h3len : (sigIssue ev (f :: rest)).length =
        if ev.has_digital_signature = true →
            ∃ r ∈ ev.custody_records,
              r.action = "VERIFIED" ∧ r.sig_verified = true
          then 0 else 1 := by
      unfold sigIssue
      split_ifs with ha hb hb
      · obtain ⟨hsig, hany0⟩ := ha
        rw [(hany.mpr (hb hsig))] at hany0
        exact Bool.noConfusion hany0
      · rfl
      · rfl
      · exfalso
        apply hb
        intro hsig
        rcases hb2 : (f :: rest).any
            (fun r => decide (r.action = "VERIFIED") && r.sig_verified) with _ | _
        · exact absurd ⟨hsig, hb2⟩ ha
        · exact hany.mp hb2
    rw [validate_eval ev f rest hs]
    refine ⟨?_, ?_, ?_⟩
    · simp [List.isEmpty_iff]
    · show (firstIssue f ++ mismatchIssues ev (f :: rest)
          ++ sigIssue ev (f :: rest)).isEmpty = true ↔ _
      simp only [List.isEmpty_iff, List.append_eq_nil, List.head?_cons,
        Option.map_some', Option.some.injEq]
      rw [h1, h2, h3]
      tauto
    · show (firstIssue f ++ mismatchIssues ev (f :: rest)
          ++ sigIssue ev (f :: rest)).length = _
      simp only [List.length_append, List.head?_cons, Option.map_some',
        Option.some.injEq]
      rw [h1len, h2len, h3len]

/-- Witness for C6: a concrete item whose chain passes all three checks. -/
theorem C6_witness :
    (validate_custody_chain
      ⟨"d1", false, [⟨"UPLOADED", "d1", 1, false⟩, ⟨"VIEWED", "", 2, false⟩]⟩).1
      = true ↔
    (validate_custody_chain
      ⟨"d1", false, [⟨"UPLOADED", "d1", 1, false⟩, ⟨"VIEWED", "", 2, false⟩]⟩).2
      = [] :=
  (C6_validate_custody
    ⟨"d1", false, [⟨"UPLOADED", "d1", 1, false⟩, ⟨"VIEWED", "", 2, false⟩]⟩
    (by decide)).1

/-!  Evidence vault upload/download (evidence/storage.py). -/

/-- Model of `hashlib.sha256(file_content).hexdigest()` over raw bytes. -/
def shaHex (b : Bytes) : String :=
  let n := b.foldl (fun a x => (a * 131 + x.val + 1) % 1000000007) 7
  String.mk ((List.range 10).map (fun i => Char.ofNat (48 + n / 10 ^ i % 10)))

/-- Embedding of `f"cases/{case_id}/evidence/{file_hash}/{file_name}"`. -/
def storageLocation (case_id file_hash file_name : String) : String :=
  "cases/" ++ case_id ++ "/evidence/" ++ file_hash ++ "/" ++ file_name

/-- The metadata dict returned by `EvidenceVault.upload_evidence` (the
fields the claims are about; `encryption_key_id` and the base64 IV are
derived metadata and omitted). -/
structure UploadResult where
  storage_path : String
  sha256_hash : String
  file_size : Nat
  is_encrypted : Bool
deriving DecidableEq

/-- Embedding of `EvidenceVault.upload_evidence` (storage.py): hashes the plaintext,
builds the storage path from case id, digest and file name, then — when
encrypting — replaces the content by the envelope, appends `.enc` to the
path, and reports `len(file_content) - 32` as the file size. -/
def upload_evidence (key iv content : Bytes) (file_name case_id : String)
    (encrypt : Bool) : UploadResult :=
  let file_hash := shaHex content
  let storage_path := storageLocation case_id file_hash file_name
  if encrypt then
    { storage_path := storage_path ++ ".enc",
      sha256_hash := file_hash,
      file_size := (encrypt_file key iv content).length - 32,
      is_encrypted := true }
  else
    { storage_path := storage_path,
      sha256_hash := file_hash,
      file_size := content.length,
      is_encrypted := false }

/-- Does `s` end with the characters `suf`? (`str.endswith`). -/
def hasSuf (suf s : List Char) : Bool := hasPre suf.reverse s.reverse

/-- Embedding of `storage_path.endswith('.enc')`. -/
def endsWithEnc (s : String) : Bool := hasSuf (lit ".enc") s.data

/-- Embedding of `EvidenceVault.download_evidence` (storage.py): `stored` is the blob
read from the store at `storage_path`.  The content is decrypted only when
the decrypt flag is set AND the path ends in `.enc`; otherwise the raw
stored bytes are returned as they are.  A decryption failure propagates
(`none`). -/
def download_evidence (key stored : Bytes) (storage_path : String)
    (decrypt : Bool) : Option Bytes :=
  if decrypt && endsWithEnc storage_path then decrypt_file key stored
  else some stored

/-- Embedding of `EvidenceVault.verify_integrity` (storage.py): downloads with
`decrypt=True`, hashes, compares with the expected digest; any exception —
including a decryption authentication failure — is caught and `False` is
returned. -/
def verify_integrity (key stored : Bytes) (storage_path expected_hash : String) :
    Bool :=
  match download_evidence key stored storage_path true with
  | some content => decide (shaHex content = expected_hash)
  | none => false

/-- C8: the digest is computed over the plaintext before any encryption, so
the same content yields the same digest with or without encryption; the
location is a deterministic function of case id, content digest and file
name, with the fixed `.enc` suffix marking encryption — independent of key
and nonce, so identical uploads map to the same location. -/
theorem C8_upload_digest_location (key iv content : Bytes)
    (fn cid : String) (e : Bool) :
    (upload_evidence key iv content fn cid e).sha256_hash = shaHex content ∧
    (upload_evidence key iv content fn cid true).storage_path =
      storageLocation cid (shaHex content) fn ++ ".enc" ∧
    (upload_evidence key iv content fn cid false).storage_path =
      storageLocation cid (shaHex content) fn ∧
    ∀ key' iv' : Bytes,
      (upload_evidence key' iv' content fn cid e).sha256_hash =
        (upload_evidence key iv content fn cid e).sha256_hash ∧
      (upload_evidence key' iv' content fn cid e).storage_path =
        (upload_evidence key iv content fn cid e).storage_path := by
  cases e <;> exact ⟨rfl, rfl, rfl, fun key' iv' => ⟨rfl, rfl⟩⟩

/-- C10: the reported file size equals the plaintext length with or without
encryption, because the envelope is exactly 32 bytes (16-byte nonce plus
16-byte tag) longer than the plaintext and the method reports the envelope
length minus 32. -/
theorem C10_file_size (key iv content : Bytes) (fn cid : String)
    (hiv : iv.length = 16) :
    (upload_evidence key iv content fn cid true).file_size = content.length ∧
    (upload_evidence key iv content fn cid false).file_size = content.length ∧
    (encrypt_file key iv content).length = content.length + 32 := by
  have hlen : (encrypt_file key iv content).length = content.length + 32 := by
    show (iv ++ tagBytes key iv (xorKeystream key iv content)
      ++ xorKeystream key iv content).length = content.length + 32
    simp only [List.length_append, hiv, tagBytes_length, xorKeystream_length]
    omega
  refine ⟨?_, rfl, hlen⟩
  show (encrypt_file key iv content).length - 32 = content.length
  omega

/-- Witness for C10 at a concrete key, nonce and plaintext. -/
theorem C10_witness :
    ((List.replicate 16 (0 : Byte)).length = 16) ∧
    (upload_evidence [3] (List.replicate 16 (0 : Byte)) [9, 8, 7] "f.bin" "c1"
      true).file_size = 3 :=
  ⟨by decide, (C10_file_size [3] (List.replicate 16 (0 : Byte)) [9, 8, 7]
    "f.bin" "c1" (by decide)).1⟩

/-- Counterexample to C9: with the decrypt flag set and a storage path NOT
carrying the `.enc` suffix — a flag-vs-suffix disagreement — the code
raises no integrity error; it silently returns the raw stored bytes. -/
theorem C9_counterexample :
    download_evidence [] [5] "cases/c1/evidence/h/f" true = some [5] := by
  decide

/-- C9 as amended: when the decrypt flag and the `.enc` suffix disagree,
`download_evidence` silently returns the raw stored bytes with no error;
and a decryption authentication failure inside `verify_integrity` is caught
and turned into a `False` return rather than propagating as an error. -/
theorem C9_amended_flag_suffix (key stored : Bytes) (p₁ p₂ expected : String)
    (h₁ : endsWithEnc p₁ = false) (h₂ : endsWithEnc p₂ = true)
    (hfail : decrypt_file key stored = none) :
    download_evidence key stored p₁ true = some stored ∧
    download_evidence key stored p₂ false = some stored ∧
    verify_integrity key stored p₂ expected = false := by
  refine ⟨?_, ?_, ?_⟩
  · simp [download_evidence, h₁]
  · simp [download_evidence]
  · simp [verify_integrity, download_evidence, h₂, hfail]

/-- Witness for the amended C9 at concrete inputs. -/
theorem C9_witness :
    (endsWithEnc "data" = false ∧ endsWithEnc "data.enc" = true ∧
      decrypt_file [] [] = none) ∧
    download_evidence [] [] "data" true = some [] ∧
    verify_integrity [] [] "data.enc" "x" = false := by
  have h := C9_amended_flag_suffix [] [] "data" "data.enc" "x"
    (by decide) (by decide) (by decide)
  exact ⟨⟨by decide, by decide, by decide⟩, h.1, h.2.2⟩

end LERS
